import Mathlib

/-!
Verification of the Othello board engine and MCTS policy
(`src/othello.rs`, `src/mcts.rs`).

The Rust code is shallowly embedded:
* `PointVec` (a pair of `i8`) becomes `Int × Int`; overflow is irrelevant
  because every arithmetic step in the source starts from an on-board
  coordinate and moves by a unit vector, staying far inside the `i8` range.
* `Board([[i8; 8]; 8])` becomes a function `Fin 8 → Fin 8 → Int`.
  `Board::get`/`Board::set` bounds-check via `Vec::get` after an
  `as usize` cast: a negative `i8` sign-extends to a huge `usize`, so the
  result is out of bounds exactly when the coordinate is outside `[0,7]`,
  which is what `idx?` models.
* the in-place mutation of `Board::play` becomes explicit state passing:
  `Board.play` returns the `Result` together with the board as it is left
  when `play` returns (also on error paths, mirroring `&mut self`).
* unbounded ray-walking loops get a fuel parameter of 9: from an on-board
  start the walk leaves the board after at most 8 steps, so fuel 9 is
  never exhausted; the fuel-0 branch mirrors the loop simply never
  continuing past the board edge.
-/

namespace Othello

/-- Position or direction vector; the Rust `PointVec(i8, i8)` with
componentwise `Add` (we use the componentwise `Prod` addition). Stored as
`(x, y)`. -/
abbrev PointVec := Int × Int

/-- The `Color` enum; `WHITE = 1`, `BLACK = -1` via `toInt`. -/
inductive Color
| WHITE
| BLACK
deriving DecidableEq

/-- The `#[repr(i8)]` value of a color (`impl From<Color> for i8`). -/
def Color.toInt : Color → Int
| .WHITE => 1
| .BLACK => -1

/-- The `IllegalMoveError` enum of `othello.rs`. -/
inductive IllegalMoveError
| CellOccupied
| DoesntTurnOver
| CantMoveOffBoard
deriving DecidableEq

/-- The `Direction` enum of `othello.rs`. -/
inductive Direction
| Up
| Down
| Left
| Right
| UpLeft
| UpRight
| DownLeft
| DownRight
deriving DecidableEq

/-- `Direction::vector`. -/
def Direction.vector : Direction → PointVec
| .Up => (0, 1)
| .Down => (0, -1)
| .Left => (-1, 0)
| .Right => (1, 0)
| .UpLeft => (-1, 1)
| .UpRight => (1, 1)
| .DownLeft => (-1, -1)
| .DownRight => (1, -1)

/-- `Direction::all`. -/
def Direction.all : List Direction :=
  [.Up, .Down, .Left, .Right, .UpLeft, .UpRight, .DownLeft, .DownRight]

/-- The `Board` newtype: an 8×8 matrix of `i8` cells, indexed row
(`y = pos.1`) first, column (`x = pos.0`) second, as `self.0[y][x]`. -/
structure Board where
  cells : Fin 8 → Fin 8 → Int

/-- Bounds check used by `Board::get`/`Board::set`: `as usize` on an `i8`
followed by slice `get` succeeds exactly for coordinates in `[0,7]`. -/
def idx? (v : Int) : Option (Fin 8) :=
  if h : 0 ≤ v ∧ v < 8 then some ⟨v.toNat, by omega⟩ else none

/-- `Board::get`: the cell value at `pos`, or `None`
(`Err(CantMoveOffBoard)` in the source) off the board. -/
def Board.get (b : Board) (p : PointVec) : Option Int :=
  match idx? p.2, idx? p.1 with
  | some y, some x => some (b.cells y x)
  | _, _ => none

/-- Write one cell of the matrix (the `*cell = color.into()` assignment). -/
def Board.updateCell (b : Board) (y x : Fin 8) (v : Int) : Board :=
  ⟨fun y' x' => if y' = y ∧ x' = x then v else b.cells y' x'⟩

/-- `Board::set`: bounds-checked write. The source also returns the old
cell value, which every caller discards, so it is dropped here. -/
def Board.set (b : Board) (p : PointVec) (color : Color) : Option Board :=
  match idx? p.2, idx? p.1 with
  | some y, some x => some (b.updateCell y x color.toInt)
  | _, _ => none

/-- `Board::new`: zero board, then the four centre seeds in source order. -/
def Board.new : Board :=
  ((((⟨fun _ _ => 0⟩ : Board).updateCell 3 3 Color.WHITE.toInt).updateCell
      3 4 Color.BLACK.toInt).updateCell 4 3 Color.BLACK.toInt).updateCell
      4 4 Color.WHITE.toInt

/-- The directional scan loop inside `Board::is_legal_move`: walk from
`looking` in direction `v`; `seen` is `seen_opp_piece`. Fuel 9 exceeds the
at most 8 on-board steps, so the 0 branch is never taken from an on-board
start. -/
def legalWalk (b : Board) (color : Color) (v : PointVec) :
    Nat → PointVec → Bool → Bool
| 0, _, _ => false
| n + 1, looking, seen =>
  match b.get looking with
  | none => false
  | some cell =>
    if cell = 0 then false
    else if cell ≠ color.toInt then legalWalk b color v n (looking + v) true
    else seen

/-- `Board::is_legal_move`. -/
def Board.is_legal_move (b : Board) (color : Color) (pos : PointVec) : Bool :=
  match b.get pos with
  | none => false
  | some v =>
    if v ≠ 0 then false
    else Direction.all.any fun d =>
      legalWalk b color d.vector 9 (pos + d.vector) false

/-- `Board::legal_moves`: row-major collection, `y` outer, `x` inner. -/
def Board.legal_moves (b : Board) (color : Color) : List PointVec :=
  (List.range 8).flatMap fun (y : Nat) =>
    (List.range 8).filterMap fun (x : Nat) =>
      if b.is_legal_move color ((x : Int), (y : Int)) then
        some ((x : Int), (y : Int))
      else none

/-- `Board::game_over`. -/
def Board.game_over (b : Board) : Bool :=
  (b.legal_moves .WHITE).isEmpty && (b.legal_moves .BLACK).isEmpty

/-- `Board::score`: `(white, black)` tally over all cells. -/
def Board.score (b : Board) : Nat × Nat :=
  (List.finRange 8).foldl
    (fun acc y =>
      (List.finRange 8).foldl
        (fun acc2 x =>
          if b.cells y x = Color.WHITE.toInt then (acc2.1 + 1, acc2.2)
          else if b.cells y x = Color.BLACK.toInt then (acc2.1, acc2.2 + 1)
          else acc2)
        acc)
    ((0, 0) : Nat × Nat)

/-- The `for p in to_flip { self.set(p, color)?; }` loop of `Board::play`:
flip the collected run, threading the board; on a `set` failure the error
propagates with the board as mutated so far. -/
def flipAll (color : Color) : List PointVec → Board →
    Except IllegalMoveError Unit × Board
| [], b => (.ok (), b)
| p :: rest, b =>
  match b.set p color with
  | none => (.error .CantMoveOffBoard, b)
  | some b1 => flipAll color rest b1

/-- One direction of the capture loop in `Board::play`: walk collecting
`to_flip`; on reaching an own-color cell with a non-empty run, flip the
run and report `true` (`flipped_any` contribution for this direction). -/
def playWalk (color : Color) (v : PointVec) :
    Nat → PointVec → List PointVec → Board →
    Except IllegalMoveError Bool × Board
| 0, _, _, b => (.ok false, b)
| n + 1, looking, toFlip, b =>
  match b.get looking with
  | none => (.ok false, b)
  | some cell =>
    if cell = 0 then (.ok false, b)
    else if cell ≠ color.toInt then
      playWalk color v n (looking + v) (toFlip ++ [looking]) b
    else if toFlip.isEmpty then (.ok false, b)
    else
      match flipAll color toFlip b with
      | (.ok _, b1) => (.ok true, b1)
      | (.error e, b1) => (.error e, b1)

/-- The `for d in Direction::all()` loop of `Board::play`, accumulating
`flipped_any` in `acc`. -/
def playDirs (color : Color) (pos : PointVec) :
    List Direction → Bool → Board → Except IllegalMoveError Bool × Board
| [], acc, b => (.ok acc, b)
| d :: rest, acc, b =>
  match playWalk color d.vector 9 (pos + d.vector) [] b with
  | (.ok flipped, b1) => playDirs color pos rest (acc || flipped) b1
  | (.error e, b1) => (.error e, b1)

/-- The unchecked write `self.0[pos.1 as usize][pos.0 as usize] = c` in
`Board::play`. The source would panic off the board; the branch is only
reached under `is_legal_move`, which guarantees an on-board `pos`, so the
off-board case (modelled as a no-op) is unreachable. -/
def Board.setD (b : Board) (p : PointVec) (color : Color) : Board :=
  match idx? p.2, idx? p.1 with
  | some y, some x => b.updateCell y x color.toInt
  | _, _ => b

/-- The unchecked read `self.0[pos.1 as usize][pos.0 as usize]` in
`Board::play`; same unreachable-off-board caveat as `Board.setD`. -/
def Board.cellD (b : Board) (p : PointVec) : Int := (b.get p).getD 0

/-- `Board::play`. Returns the `Result` paired with the board as left by
the call (the source mutates `&mut self` in place). -/
def Board.play (b : Board) (color : Color) (pos : PointVec) :
    Except IllegalMoveError Unit × Board :=
  if b.is_legal_move color pos then
    if b.cellD pos = 0 then
      match playDirs color pos Direction.all false (b.setD pos color) with
      | (.ok flippedAny, b2) =>
        if flippedAny then
          match b2.set pos color with
          | some b3 => (.ok (), b3)
          | none => (.error .CantMoveOffBoard, b2)
        else (.error .DoesntTurnOver, b2)
      | (.error e, b2) => (.error e, b2)
    else (.error .CellOccupied, b)
  else (.error .DoesntTurnOver, b)

instance : DecidableEq (Except IllegalMoveError Unit) := fun
  | .ok _, .ok _ => isTrue rfl
  | .ok _, .error _ => isFalse (by simp)
  | .error _, .ok _ => isFalse (by simp)
  | .error e, .error e2 =>
    if h : e = e2 then isTrue (by rw [h]) else isFalse (by simp [h])

instance : DecidableEq Board := fun a b =>
  decidable_of_iff (∀ y x, a.cells y x = b.cells y x)
    ⟨fun h => by
      cases a
      cases b
      simp only [Board.mk.injEq]
      funext y x
      exact h y x,
     fun h y x => by rw [h]⟩

/-- On-board predicate: both coordinates in `[0, 7]`. -/
def inB (p : PointVec) : Prop := 0 ≤ p.1 ∧ p.1 < 8 ∧ 0 ≤ p.2 ∧ p.2 < 8

instance : DecidablePred inB := fun p => by unfold inB; infer_instance

/-- The 64 on-board points, row-major. -/
def boardPoints : List PointVec :=
  (List.range 8).flatMap fun (y : Nat) =>
    (List.range 8).map fun (x : Nat) => ((x : Int), (y : Int))

/-- Number of occupied (non-empty) cells of a board. -/
def occupiedCount (b : Board) : Nat :=
  (boardPoints.filter fun p => decide (b.cellD p ≠ 0)).length

/-- Number of cells holding Black in `b` and White in `b2` (cells flipped
Black→White between the two snapshots). -/
def flipCount (b b2 : Board) : Nat :=
  (boardPoints.filter fun p =>
    decide (b.cellD p = Color.BLACK.toInt ∧ b2.cellD p = Color.WHITE.toInt)).length

/-! Bridge lemmas relating `get`/`set`/`setD` to `inB` and `updateCell`. -/

lemma idx?_some (v : Int) (h0 : 0 ≤ v) (h8 : v < 8) :
    idx? v = some ⟨v.toNat, by omega⟩ := by
  unfold idx?
  rw [dif_pos ⟨h0, h8⟩]

lemma idx?_val {v : Int} {i : Fin 8} (h : idx? v = some i) :
    ((i : Nat) : Int) = v ∧ 0 ≤ v ∧ v < 8 := by
  unfold idx? at h
  split at h
  · next hv =>
      cases h
      exact ⟨by simp [Int.toNat_of_nonneg hv.1], hv⟩
  · cases h

lemma Board.get_eq_some_of_inB (b : Board) {p : PointVec} (h : inB p) :
    ∃ c, b.get p = some c := by
  obtain ⟨h1, h2, h3, h4⟩ := h
  unfold Board.get
  rw [idx?_some p.2 h3 h4, idx?_some p.1 h1 h2]
  exact ⟨_, rfl⟩

lemma Board.get_eq_none_of_not_inB (b : Board) {p : PointVec} (h : ¬ inB p) :
    b.get p = none := by
  unfold Board.get
  rcases hy : idx? p.2 with _ | y2 <;> rcases hx : idx? p.1 with _ | x2
  · rfl
  · rfl
  · rfl
  · obtain ⟨_, hy2⟩ := idx?_val hy
    obtain ⟨_, hx2⟩ := idx?_val hx
    exact absurd ⟨hx2.1, hx2.2, hy2.1, hy2.2⟩ h

lemma Board.inB_of_get_eq_some {b : Board} {p : PointVec} {c : Int}
    (h : b.get p = some c) : inB p := by
  by_contra hn
  rw [b.get_eq_none_of_not_inB hn] at h
  exact absurd h (by simp)

lemma Board.get_updateCell_ne (b : Board) (y x : Fin 8) (v : Int)
    {q : PointVec} (h : q ≠ (((x : Nat) : Int), ((y : Nat) : Int))) :
    (b.updateCell y x v).get q = b.get q := by
  unfold Board.get Board.updateCell
  rcases hy : idx? q.2 with _ | y2 <;> rcases hx : idx? q.1 with _ | x2
  · rfl
  · rfl
  · rfl
  · simp only [Option.some.injEq]
    rw [if_neg]
    rintro ⟨rfl, rfl⟩
    obtain ⟨hy2, _⟩ := idx?_val hy
    obtain ⟨hx2, _⟩ := idx?_val hx
    exact h (Prod.ext hx2.symm hy2.symm)

lemma Board.get_updateCell_self (b : Board) (y x : Fin 8) (v : Int)
    {q : PointVec} (hq : q = (((x : Nat) : Int), ((y : Nat) : Int))) :
    (b.updateCell y x v).get q = some v := by
  subst hq
  unfold Board.get Board.updateCell
  rw [idx?_some ((y : Nat) : Int) (by positivity) (by exact_mod_cast y.isLt),
    idx?_some ((x : Nat) : Int) (by positivity) (by exact_mod_cast x.isLt)]
  simp only [Option.some.injEq]
  rw [if_pos]
  constructor <;> apply Fin.ext <;> simp

lemma Board.set_eq_some_of_inB (b : Board) {p : PointVec} (color : Color)
    (h : inB p) : b.set p color = some (b.setD p color) := by
  obtain ⟨h1, h2, h3, h4⟩ := h
  unfold Board.set Board.setD
  rw [idx?_some p.2 h3 h4, idx?_some p.1 h1 h2]

lemma Board.set_eq_none_of_not_inB (b : Board) {p : PointVec} (color : Color)
    (h : ¬ inB p) : b.set p color = none := by
  unfold Board.set
  rcases hy : idx? p.2 with _ | y2 <;> rcases hx : idx? p.1 with _ | x2
  · rfl
  · rfl
  · rfl
  · obtain ⟨_, hy2⟩ := idx?_val hy
    obtain ⟨_, hx2⟩ := idx?_val hx
    exact absurd ⟨hx2.1, hx2.2, hy2.1, hy2.2⟩ h

lemma Board.set_eq_some_elim {b b2 : Board} {p : PointVec} {color : Color}
    (h : b.set p color = some b2) : b2 = b.setD p color ∧ inB p := by
  by_cases hp : inB p
  · rw [b.set_eq_some_of_inB color hp] at h
    cases h
    exact ⟨rfl, hp⟩
  · rw [b.set_eq_none_of_not_inB color hp] at h
    exact absurd h (by simp)

lemma Board.setD_of_not_inB (b : Board) {p : PointVec} (color : Color)
    (h : ¬ inB p) : b.setD p color = b := by
  unfold Board.setD
  rcases hy : idx? p.2 with _ | y2 <;> rcases hx : idx? p.1 with _ | x2
  · rfl
  · rfl
  · rfl
  · obtain ⟨_, hy2⟩ := idx?_val hy
    obtain ⟨_, hx2⟩ := idx?_val hx
    exact absurd ⟨hx2.1, hx2.2, hy2.1, hy2.2⟩ h

lemma inB_pair_eq {p : PointVec} (h1 : 0 ≤ p.1) (h2 : p.1 < 8) (h3 : 0 ≤ p.2)
    (h4 : p.2 < 8) :
    ((((⟨p.1.toNat, by omega⟩ : Fin 8) : Nat) : Int),
      (((⟨p.2.toNat, by omega⟩ : Fin 8) : Nat) : Int)) = p := by
  apply Prod.ext <;> simp [Int.toNat_of_nonneg h1, Int.toNat_of_nonneg h3]

lemma Board.setD_get_ne (b : Board) {p : PointVec} (color : Color)
    {q : PointVec} (h : q ≠ p) : (b.setD p color).get q = b.get q := by
  by_cases hp : inB p
  · obtain ⟨h1, h2, h3, h4⟩ := hp
    unfold Board.setD
    rw [idx?_some p.2 h3 h4, idx?_some p.1 h1 h2]
    exact Board.get_updateCell_ne b _ _ _
      fun hq => h (hq.trans (inB_pair_eq h1 h2 h3 h4))
  · rw [b.setD_of_not_inB color hp]

lemma Board.setD_get_self (b : Board) {p : PointVec} (color : Color)
    (h : inB p) : (b.setD p color).get p = some color.toInt := by
  obtain ⟨h1, h2, h3, h4⟩ := h
  unfold Board.setD
  rw [idx?_some p.2 h3 h4, idx?_some p.1 h1 h2]
  exact Board.get_updateCell_self b _ _ _ (inB_pair_eq h1 h2 h3 h4).symm

/-! Ray geometry: the cells a directional walk from `pos` can visit. -/

/-- Scalar multiple of a vector. -/
def scale (k : Int) (v : PointVec) : PointVec := (k * v.1, k * v.2)

lemma add_scale_zero (s v : PointVec) : s + scale 0 v = s := by
  cases s
  cases v
  simp [scale]

lemma add_scale_step (s v : PointVec) (k : Int) :
    (s + v) + scale k v = s + scale (k + 1) v := by
  cases s
  cases v
  simp only [scale, Prod.mk_add_mk, Prod.mk.injEq]
  constructor <;> ring

lemma scale_dir_ne_zero (d : Direction) {k : Int} (hk : 1 ≤ k) :
    scale k d.vector ≠ (0, 0) := by
  cases d <;> simp [scale, Direction.vector, Prod.ext_iff] <;> omega

lemma scale_dir_ne (d d2 : Direction) (hne : d ≠ d2) {a c : Int}
    (ha : 1 ≤ a) (hc : 1 ≤ c) : scale a d.vector ≠ scale c d2.vector := by
  cases d <;> cases d2 <;>
    simp_all [scale, Direction.vector, Prod.ext_iff] <;> omega

/-- `bCur` agrees with `bRef` on every cell of the ray from `s` (inclusive)
in direction `v`. -/
def agreeFrom (bRef bCur : Board) (s v : PointVec) : Prop :=
  ∀ k : Nat, bCur.get (s + scale (k : Int) v) = bRef.get (s + scale (k : Int) v)

lemma agreeFrom_head {bRef bCur : Board} {s v : PointVec}
    (h : agreeFrom bRef bCur s v) : bCur.get s = bRef.get s := by
  have h0 := h 0
  rwa [Int.natCast_zero, add_scale_zero] at h0

lemma agreeFrom_step {bRef bCur : Board} {s v : PointVec}
    (h : agreeFrom bRef bCur s v) : agreeFrom bRef bCur (s + v) v := by
  intro k
  rw [add_scale_step]
  have hk := h (k + 1)
  rwa [Int.natCast_add, Int.natCast_one] at hk

/-! Behaviour of `flipAll`. -/

lemma flipAll_ok (color : Color) :
    ∀ (l : List PointVec) (b : Board), (∀ p ∈ l, inB p) →
    ∃ b2, flipAll color l b = (.ok (), b2) := by
  intro l
  induction l with
  | nil => exact fun b _ => ⟨b, rfl⟩
  | cons p rest ih =>
    intro b h
    simp only [flipAll]
    rw [b.set_eq_some_of_inB color (h p (List.mem_cons_self _ _))]
    exact ih _ fun q hq => h q (List.mem_cons_of_mem _ hq)

lemma flipAll_get_not_mem (color : Color) {q : PointVec} :
    ∀ (l : List PointVec) (b : Board), q ∉ l →
    ((flipAll color l b).2).get q = b.get q := by
  intro l
  induction l with
  | nil => exact fun b _ => rfl
  | cons p rest ih =>
    intro b hq
    simp only [flipAll]
    rcases hs : b.set p color with _ | b1
    · rfl
    · obtain ⟨hb1, hp⟩ := Board.set_eq_some_elim hs
      subst hb1
      rw [ih _ fun hmem => hq (List.mem_cons_of_mem _ hmem)]
      exact Board.setD_get_ne b color fun h => hq (h ▸ List.mem_cons_self _ _)

lemma flipAll_get_mem (color : Color) {q : PointVec} :
    ∀ (l : List PointVec) (b : Board), (∀ p ∈ l, inB p) → q ∈ l →
    ((flipAll color l b).2).get q = some color.toInt := by
  intro l
  induction l with
  | nil => exact fun b _ h => absurd h (List.not_mem_nil _)
  | cons p rest ih =>
    intro b hall hmem
    simp only [flipAll]
    rw [b.set_eq_some_of_inB color (hall p (List.mem_cons_self _ _))]
    by_cases hqr : q ∈ rest
    · exact ih _ (fun r hr => hall r (List.mem_cons_of_mem _ hr)) hqr
    · have hqp : q = p := by
        rcases List.mem_cons.mp hmem with h | h
        · exact h
        · exact absurd h hqr
      subst hqp
      rw [flipAll_get_not_mem color rest _ hqr]
      exact b.setD_get_self color (hall q (List.mem_cons_self _ _))

/-! Behaviour of `playWalk`. -/

lemma playWalk_ok (color : Color) (v : PointVec) :
    ∀ (n : Nat) (s : PointVec) (toFlip : List PointVec) (b : Board),
    (∀ p ∈ toFlip, inB p) →
    ∃ flag b2, playWalk color v n s toFlip b = (.ok flag, b2) := by
  intro n
  induction n with
  | zero => exact fun s toFlip b _ => ⟨false, b, rfl⟩
  | succ n ih =>
    intro s toFlip b hall
    simp only [playWalk]
    rcases hg : b.get s with _ | cell
    · exact ⟨false, b, rfl⟩
    · simp only []
      by_cases h0 : cell = 0
      · rw [if_pos h0]
        exact ⟨false, b, rfl⟩
      · rw [if_neg h0]
        by_cases hc : cell ≠ color.toInt
        · rw [if_pos hc]
          exact ih _ _ _ fun p hp => by
            rcases List.mem_append.mp hp with h | h
            · exact hall p h
            · rw [List.mem_singleton.mp h]
              exact Board.inB_of_get_eq_some hg
        · rw [if_neg hc]
          by_cases he : toFlip.isEmpty
          · rw [if_pos he]
            exact ⟨false, b, rfl⟩
          · rw [if_neg he]
            obtain ⟨b2, hfa⟩ := flipAll_ok color toFlip b hall
            rw [hfa]
            exact ⟨true, b2, rfl⟩

lemma playWalk_get_off_ray (color : Color) (v : PointVec) {q : PointVec} :
    ∀ (n : Nat) (s : PointVec) (toFlip : List PointVec) (b : Board),
    (∀ k : Nat, q ≠ s + scale (k : Int) v) → q ∉ toFlip →
    ((playWalk color v n s toFlip b).2).get q = b.get q := by
  intro n
  induction n with
  | zero => exact fun s toFlip b _ _ => rfl
  | succ n ih =>
    intro s toFlip b hray htf
    simp only [playWalk]
    rcases hg : b.get s with _ | cell
    · rfl
    · simp only []
      by_cases h0 : cell = 0
      · rw [if_pos h0]
      · rw [if_neg h0]
        by_cases hc : cell ≠ color.toInt
        · rw [if_pos hc]
          apply ih
          · intro k
            rw [add_scale_step]
            have hk := hray (k + 1)
            rwa [Int.natCast_add, Int.natCast_one] at hk
          · intro hmem
            rcases List.mem_append.mp hmem with h | h
            · exact htf h
            · have h0' := hray 0
              rw [Int.natCast_zero, add_scale_zero] at h0'
              exact h0' (List.mem_singleton.mp h)
        · rw [if_neg hc]
          by_cases he : toFlip.isEmpty
          · rw [if_pos he]
          · rw [if_neg he]
            rcases hfa : flipAll color toFlip b with ⟨r, b1⟩
            have hloc : b1.get q = b.get q := by
              have := flipAll_get_not_mem color toFlip b htf
              rwa [hfa] at this
            rcases r with e | u <;> simpa using hloc

/-! Write effects: a play step only overwrites occupied cells (with the
moving color), apart from the placement itself. -/

lemma Color.toInt_ne_zero (color : Color) : color.toInt ≠ 0 := by
  cases color <;> decide

/-- `bOut` differs from `bIn` only by writing `color` over cells that were
already occupied in `bIn`. -/
def Wc (color : Color) (bIn bOut : Board) : Prop :=
  ∀ q, bOut.get q = bIn.get q ∨
    (bOut.get q = some color.toInt ∧ ∃ c, bIn.get q = some c ∧ c ≠ 0)

lemma Wc_refl (color : Color) (b : Board) : Wc color b b := fun _ => .inl rfl

lemma Wc_trans {color : Color} {b b1 b2 : Board} (h1 : Wc color b b1)
    (h2 : Wc color b1 b2) : Wc color b b2 := by
  intro q
  rcases h2 q with h | ⟨hcol, c1, hc1, hc10⟩
  · rcases h1 q with h' | ⟨hcol', hex⟩
    · exact .inl (h.trans h')
    · exact .inr ⟨h.trans hcol', hex⟩
  · rcases h1 q with h' | ⟨hcol', c, hc, hc0⟩
    · exact .inr ⟨hcol, c1, h'.symm.trans hc1, hc10⟩
    · exact .inr ⟨hcol, c, hc, hc0⟩

lemma Wc_setD {color : Color} {b : Board} {p : PointVec} {c : Int}
    (hc : b.get p = some c) (h0 : c ≠ 0) : Wc color b (b.setD p color) := by
  intro q
  by_cases hqp : q = p
  · subst hqp
    exact .inr ⟨b.setD_get_self color (Board.inB_of_get_eq_some hc), c, hc, h0⟩
  · exact .inl (b.setD_get_ne color hqp)

lemma flipAll_Wc (color : Color) :
    ∀ (l : List PointVec) (b : Board),
    (∀ p ∈ l, ∃ c, b.get p = some c ∧ c ≠ 0) →
    Wc color b (flipAll color l b).2 := by
  intro l
  induction l with
  | nil => exact fun b _ => Wc_refl color b
  | cons p rest ih =>
    intro b hall
    simp only [flipAll]
    rcases hs : b.set p color with _ | b1
    · exact Wc_refl color b
    · obtain ⟨hb1, hp⟩ := Board.set_eq_some_elim hs
      subst hb1
      obtain ⟨c, hc, hc0⟩ := hall p (List.mem_cons_self _ _)
      have hW1 : Wc color b (b.setD p color) := Wc_setD hc hc0
      refine Wc_trans hW1 (ih _ fun r hr => ?_)
      obtain ⟨cr, hcr, hcr0⟩ := hall r (List.mem_cons_of_mem _ hr)
      rcases hW1 r with h | ⟨hcol, _⟩
      · exact ⟨cr, h.trans hcr, hcr0⟩
      · exact ⟨color.toInt, hcol, color.toInt_ne_zero⟩

lemma playWalk_Wc (color : Color) (v : PointVec) :
    ∀ (n : Nat) (s : PointVec) (toFlip : List PointVec) (b : Board),
    (∀ p ∈ toFlip, ∃ c, b.get p = some c ∧ c ≠ 0) →
    Wc color b (playWalk color v n s toFlip b).2 := by
  intro n
  induction n with
  | zero => exact fun s toFlip b _ => Wc_refl color b
  | succ n ih =>
    intro s toFlip b hall
    simp only [playWalk]
    rcases hg : b.get s with _ | cell
    · exact Wc_refl color b
    · simp only []
      by_cases h0 : cell = 0
      · rw [if_pos h0]
        exact Wc_refl color b
      · rw [if_neg h0]
        by_cases hc : cell ≠ color.toInt
        · rw [if_pos hc]
          apply ih
          intro p hp
          rcases List.mem_append.mp hp with h | h
          · exact hall p h
          · rw [List.mem_singleton.mp h]
            exact ⟨cell, hg, h0⟩
        · rw [if_neg hc]
          by_cases he : toFlip.isEmpty
          · rw [if_pos he]
            exact Wc_refl color b
          · rw [if_neg he]
            rcases hfa : flipAll color toFlip b with ⟨r, b1⟩
            have hW : Wc color b b1 := by
              have := flipAll_Wc color toFlip b hall
              rwa [hfa] at this
            rcases r with e | u <;> exact hW

lemma playDirs_Wc (color : Color) (pos : PointVec) :
    ∀ (ds : List Direction) (acc : Bool) (b : Board),
    Wc color b (playDirs color pos ds acc b).2 := by
  intro ds
  induction ds with
  | nil => exact fun acc b => Wc_refl color b
  | cons d rest ih =>
    intro acc b
    simp only [playDirs]
    rcases hpw : playWalk color d.vector 9 (pos + d.vector) [] b with ⟨r, b1⟩
    have hW1 : Wc color b b1 := by
      have := playWalk_Wc color d.vector 9 (pos + d.vector) [] b (by simp)
      rwa [hpw] at this
    rcases r with e | flipped
    · exact hW1
    · exact Wc_trans hW1 (ih _ _)

/-! Simulation: the success flag of `playWalk` matches `legalWalk` on a
reference board that agrees along the walked ray. -/

lemma playWalk_flag (color : Color) (v : PointVec) (bRef : Board) :
    ∀ (n : Nat) (s : PointVec) (toFlip : List PointVec) (seen : Bool) (b : Board),
    agreeFrom bRef b s v → toFlip.isEmpty = !seen →
    (∀ p ∈ toFlip, inB p) →
    (playWalk color v n s toFlip b).1 =
      .ok (legalWalk bRef color v n s seen) := by
  intro n
  induction n with
  | zero => intro s toFlip seen b _ _ _; rfl
  | succ n ih =>
    intro s toFlip seen b hag hsync hall
    have hhead : b.get s = bRef.get s := agreeFrom_head hag
    simp only [playWalk, legalWalk, ← hhead]
    rcases hg : b.get s with _ | cell
    · rfl
    · simp only []
      by_cases h0 : cell = 0
      · rw [if_pos h0, if_pos h0]
      · rw [if_neg h0, if_neg h0]
        by_cases hc : cell ≠ color.toInt
        · rw [if_pos hc, if_pos hc]
          apply ih _ _ _ _ (agreeFrom_step hag) (by simp)
          intro p hp
          rcases List.mem_append.mp hp with h | h
          · exact hall p h
          · rw [List.mem_singleton.mp h]
            exact Board.inB_of_get_eq_some hg
        · rw [if_neg hc, if_neg hc]
          by_cases he : toFlip.isEmpty
          · rw [if_pos he]
            have : seen = false := by
              rw [he] at hsync
              cases seen
              · rfl
              · cases hsync
            rw [this]
          · rw [if_neg he]
            have hseen : seen = true := by
              cases seen
              · rw [Bool.not_false] at hsync
                exact absurd hsync he
              · rfl
            obtain ⟨b2, hfa⟩ := flipAll_ok color toFlip b hall
            rw [hfa, hseen]

/-- One direction's legality test inside `Board::is_legal_move`. -/
def legalDir (b : Board) (color : Color) (pos : PointVec) (d : Direction) : Bool :=
  legalWalk b color d.vector 9 (pos + d.vector) false

lemma is_legal_move_eq_any (b : Board) (color : Color) {pos : PointVec}
    (hg : b.get pos = some 0) :
    b.is_legal_move color pos = Direction.all.any (legalDir b color pos) := by
  unfold Board.is_legal_move
  split
  · next hnone => rw [hg] at hnone; cases hnone
  · next v hsome =>
      rw [hg] at hsome
      cases hsome
      rw [if_neg (by simp)]
      rfl

lemma is_legal_elim {b : Board} {color : Color} {pos : PointVec}
    (h : b.is_legal_move color pos = true) :
    b.get pos = some 0 ∧ Direction.all.any (legalDir b color pos) = true := by
  unfold Board.is_legal_move at h
  split at h
  · cases h
  · next c hg =>
      by_cases h0 : c ≠ 0
      · rw [if_pos h0] at h
        cases h
      · rw [if_neg h0] at h
        push_neg at h0
        subst h0
        exact ⟨hg, h⟩

lemma playDirs_sim (b : Board) (color : Color) (pos : PointVec) :
    ∀ (ds : List Direction), ds.Nodup →
    ∀ (acc : Bool) (bCur : Board),
    (∀ d ∈ ds, agreeFrom b bCur (pos + d.vector) d.vector) →
    ∃ b2, playDirs color pos ds acc bCur =
      (.ok (acc || ds.any (legalDir b color pos)), b2) := by
  intro ds
  induction ds with
  | nil =>
    intro _ acc bCur _
    exact ⟨bCur, by simp [playDirs]⟩
  | cons d rest ih =>
    intro hnd acc bCur hag
    have hagd := hag d (List.mem_cons_self _ _)
    obtain ⟨flag, bW, hpw⟩ :=
      playWalk_ok color d.vector 9 (pos + d.vector) [] bCur (by simp)
    have hflag : (playWalk color d.vector 9 (pos + d.vector) [] bCur).1 =
        .ok (legalDir b color pos d) :=
      playWalk_flag color d.vector b 9 (pos + d.vector) [] false bCur hagd
        (by simp) (by simp)
    rw [hpw] at hflag
    have hflag2 : flag = legalDir b color pos d := by
      simpa using hflag
    subst hflag2
    simp only [playDirs, hpw]
    have hagrest : ∀ d2 ∈ rest, agreeFrom b bW (pos + d2.vector) d2.vector := by
      intro d2 hd2 k
      have hd2ne : d ≠ d2 := by
        rintro rfl
        exact (List.nodup_cons.mp hnd).1 hd2
      have hray : ∀ j : Nat,
          (pos + d2.vector) + scale (k : Int) d2.vector ≠
            (pos + d.vector) + scale (j : Int) d.vector := by
        intro j heq
        rw [add_scale_step, add_scale_step] at heq
        have hsc : scale ((k : Int) + 1) d2.vector =
            scale ((j : Int) + 1) d.vector := add_left_cancel heq
        exact scale_dir_ne d2 d (Ne.symm hd2ne) (by omega) (by omega) hsc
      have hWloc : bW.get ((pos + d2.vector) + scale (k : Int) d2.vector) =
          bCur.get ((pos + d2.vector) + scale (k : Int) d2.vector) := by
        have hloc := playWalk_get_off_ray color d.vector 9 (pos + d.vector) []
          bCur hray (List.not_mem_nil _)
        rw [hpw] at hloc
        exact hloc
      rw [hWloc]
      exact hag d2 (List.mem_cons_of_mem _ hd2) k
    obtain ⟨b2, hrest⟩ :=
      ih (List.nodup_cons.mp hnd).2 (acc || legalDir b color pos d) bW hagrest
    refine ⟨b2, ?_⟩
    rw [hrest]
    simp [List.any_cons, Bool.or_assoc]

/-! The success path of `Board.play`. -/

lemma play_ok_of_legal {b : Board} {color : Color} {pos : PointVec}
    (h : b.is_legal_move color pos = true) :
    ∃ b2, b.play color pos = (.ok (), b2.setD pos color) ∧
      Wc color (b.setD pos color) b2 := by
  obtain ⟨hg, hany⟩ := is_legal_elim h
  have hinB := Board.inB_of_get_eq_some hg
  unfold Board.play
  rw [if_pos h]
  have hcell : b.cellD pos = 0 := by
    unfold Board.cellD
    rw [hg]
    rfl
  rw [if_pos hcell]
  have hag : ∀ d ∈ Direction.all,
      agreeFrom b (b.setD pos color) (pos + d.vector) d.vector := by
    intro d _ k
    rw [add_scale_step]
    apply Board.setD_get_ne
    intro heq
    have hz : scale ((k : Int) + 1) d.vector = (0, 0) := by
      have h2 : pos + scale ((k : Int) + 1) d.vector = pos + (0, 0) := by
        rw [heq]
        cases pos
        simp
      exact add_left_cancel h2
    exact scale_dir_ne_zero d (by omega) hz
  obtain ⟨b2, hpd⟩ := playDirs_sim b color pos Direction.all (by decide) false
    (b.setD pos color) hag
  have hWc : Wc color (b.setD pos color) b2 := by
    have := playDirs_Wc color pos Direction.all false (b.setD pos color)
    rwa [hpd] at this
  rw [hpd]
  simp only [Bool.false_or, hany, if_pos]
  rw [b2.set_eq_some_of_inB color hinB]
  exact ⟨b2, rfl, hWc⟩

lemma play_not_legal {b : Board} {color : Color} {pos : PointVec}
    (h : ¬ b.is_legal_move color pos = true) :
    b.play color pos = (.error .DoesntTurnOver, b) := by
  unfold Board.play
  rw [if_neg h]

lemma play_ok_iff_legal (b : Board) (color : Color) (pos : PointVec) :
    (b.play color pos).1 = .ok () ↔ b.is_legal_move color pos = true := by
  constructor
  · intro h
    by_contra hn
    rw [play_not_legal hn] at h
    cases h
  · intro h
    obtain ⟨b2, hp, _⟩ := play_ok_of_legal h
    rw [hp]

lemma mem_legal_moves_iff {b : Board} {color : Color} {pos : PointVec} :
    pos ∈ b.legal_moves color ↔ b.is_legal_move color pos = true := by
  unfold Board.legal_moves
  simp only [List.mem_flatMap, List.mem_filterMap, List.mem_range]
  constructor
  · rintro ⟨y, hy, x, hx, hpos⟩
    by_cases hl : b.is_legal_move color ((x : Int), (y : Int)) = true
    · rw [if_pos hl] at hpos
      cases hpos
      exact hl
    · rw [if_neg hl] at hpos
      cases hpos
  · intro hl
    have hinB : inB pos := Board.inB_of_get_eq_some (is_legal_elim hl).1
    obtain ⟨h1, h2, h3, h4⟩ := hinB
    refine ⟨pos.2.toNat, by omega, pos.1.toNat, by omega, ?_⟩
    have hpp : (((pos.1.toNat : Nat) : Int), ((pos.2.toNat : Nat) : Int)) = pos :=
      Prod.ext (Int.toNat_of_nonneg h1) (Int.toNat_of_nonneg h3)
    rw [hpp, if_pos hl]

lemma play_error_elim {b : Board} {color : Color} {pos : PointVec}
    {e : IllegalMoveError} (h : (b.play color pos).1 = .error e) :
    e = .DoesntTurnOver ∧ (b.play color pos).2 = b := by
  by_cases hl : b.is_legal_move color pos = true
  · obtain ⟨b2, hp, _⟩ := play_ok_of_legal hl
    rw [hp] at h
    cases h
  · rw [play_not_legal hl] at h ⊢
    cases h
    exact ⟨rfl, rfl⟩

/-! Occupied-cell counting. -/

lemma mem_boardPoints_iff {p : PointVec} : p ∈ boardPoints ↔ inB p := by
  unfold boardPoints
  simp only [List.mem_flatMap, List.mem_map, List.mem_range]
  constructor
  · rintro ⟨y, hy, x, hx, rfl⟩
    have hx8 : (x : Int) < 8 := by exact_mod_cast hx
    have hy8 : (y : Int) < 8 := by exact_mod_cast hy
    exact ⟨Int.natCast_nonneg x, hx8, Int.natCast_nonneg y, hy8⟩
  · rintro ⟨h1, h2, h3, h4⟩
    exact ⟨p.2.toNat, by omega, p.1.toNat, by omega,
      Prod.ext (Int.toNat_of_nonneg h1) (Int.toNat_of_nonneg h3)⟩

lemma boardPoints_nodup : boardPoints.Nodup := by decide

lemma Board.cellD_eq {b : Board} {p : PointVec} {c : Int}
    (h : b.get p = some c) : b.cellD p = c := by
  unfold Board.cellD
  rw [h]
  rfl

lemma Wc_cellD_zero_iff {color : Color} {b b2 : Board} (hW : Wc color b b2)
    {p : PointVec} (hp : inB p) : b2.cellD p = 0 ↔ b.cellD p = 0 := by
  obtain ⟨c, hc⟩ := b.get_eq_some_of_inB hp
  rcases hW p with h | ⟨hcol, c2, hc2, h0⟩
  · rw [Board.cellD_eq hc, Board.cellD_eq (h.trans hc)]
  · rw [Board.cellD_eq hcol, Board.cellD_eq hc2]
    constructor
    · intro h
      exact absurd h color.toInt_ne_zero
    · intro h
      exact absurd h h0

lemma occupiedCount_congr {b b2 : Board}
    (h : ∀ p, inB p → (b2.cellD p = 0 ↔ b.cellD p = 0)) :
    occupiedCount b2 = occupiedCount b := by
  unfold occupiedCount
  congr 1
  apply List.filter_congr
  intro p hp
  have hiff := h p (mem_boardPoints_iff.mp hp)
  simp only [decide_eq_decide]
  tauto

lemma count_filter_update {l : List PointVec} {f g : PointVec → Bool}
    {p : PointVec} :
    l.Nodup → p ∈ l → (∀ q ∈ l, q ≠ p → f q = g q) →
    f p = false → g p = true →
    (l.filter g).length = (l.filter f).length + 1 := by
  induction l with
  | nil => intro _ hp; cases hp
  | cons a rest ih =>
    intro hnd hp hothers hfp hgp
    rcases List.mem_cons.mp hp with rfl | hp2
    · rw [List.filter_cons, List.filter_cons, hfp, hgp]
      have hrest : rest.filter f = rest.filter g :=
        List.filter_congr fun q hq =>
          hothers q (List.mem_cons_of_mem _ hq)
            fun hqp => (List.nodup_cons.mp hnd).1 (hqp ▸ hq)
      rw [hrest]
      simp
    · have hap : a ≠ p := fun h => (List.nodup_cons.mp hnd).1 (h ▸ hp2)
      rw [List.filter_cons, List.filter_cons,
        hothers a (List.mem_cons_self _ _) hap]
      have hrec := ih (List.nodup_cons.mp hnd).2 hp2
        (fun q hq => hothers q (List.mem_cons_of_mem _ hq)) hfp hgp
      cases hga : g a <;> simp [hga, hrec]

lemma occupiedCount_setD_add_one {b : Board} {pos : PointVec} {color : Color}
    (hp : inB pos) (h0 : b.cellD pos = 0) :
    occupiedCount (b.setD pos color) = occupiedCount b + 1 := by
  unfold occupiedCount
  apply count_filter_update boardPoints_nodup (mem_boardPoints_iff.mpr hp)
  · intro q _ hqp
    have : (b.setD pos color).cellD q = b.cellD q := by
      unfold Board.cellD
      rw [Board.setD_get_ne b color hqp]
    rw [this]
  · simp [h0]
  · have : (b.setD pos color).cellD pos = color.toInt :=
      Board.cellD_eq (Board.setD_get_self b color hp)
    simp [this, color.toInt_ne_zero]

lemma occupiedCount_setD_occupied {b : Board} {pos : PointVec} {color : Color}
    (h0 : b.cellD pos ≠ 0) :
    occupiedCount (b.setD pos color) = occupiedCount b := by
  apply occupiedCount_congr
  intro q hq
  by_cases hqp : q = pos
  · subst hqp
    by_cases hp : inB q
    · have : (b.setD q color).cellD q = color.toInt :=
        Board.cellD_eq (Board.setD_get_self b color hp)
      rw [this]
      constructor
      · intro h
        exact absurd h color.toInt_ne_zero
      · intro h
        exact absurd h h0
    · rw [b.setD_of_not_inB color hp]
  · unfold Board.cellD
    rw [Board.setD_get_ne b color hqp]

/-- C7 core: a successful `play` raises the occupied count by exactly one,
and the count never decreases on any path. -/
lemma play_count {b : Board} {color : Color} {pos : PointVec} :
    occupiedCount b ≤ occupiedCount (b.play color pos).2 ∧
    ((b.play color pos).1 = .ok () →
      occupiedCount (b.play color pos).2 = occupiedCount b + 1) := by
  by_cases hl : b.is_legal_move color pos = true
  · obtain ⟨b2, hp, hWc⟩ := play_ok_of_legal hl
    obtain ⟨hg, _⟩ := is_legal_elim hl
    have hinB := Board.inB_of_get_eq_some hg
    have hcell : b.cellD pos = 0 := Board.cellD_eq hg
    have h1 : occupiedCount (b.setD pos color) = occupiedCount b + 1 :=
      occupiedCount_setD_add_one hinB hcell
    have h2 : occupiedCount b2 = occupiedCount (b.setD pos color) :=
      occupiedCount_congr fun p hp2 => Wc_cellD_zero_iff hWc hp2
    have h3 : b2.cellD pos ≠ 0 := by
      have hb1 : (b.setD pos color).get pos = some color.toInt :=
        Board.setD_get_self b color hinB
      rcases hWc pos with h | ⟨hcol, _⟩
      · rw [Board.cellD_eq (h.trans hb1)]
        exact color.toInt_ne_zero
      · rw [Board.cellD_eq hcol]
        exact color.toInt_ne_zero
    have h4 : occupiedCount (b2.setD pos color) = occupiedCount b2 :=
      occupiedCount_setD_occupied h3
    rw [hp]
    constructor
    · show occupiedCount b ≤ occupiedCount (b2.setD pos color)
      omega
    · intro _
      show occupiedCount (b2.setD pos color) = occupiedCount b + 1
      omega
  · rw [play_not_legal hl]
    exact ⟨le_refl _, fun h => by cases h⟩

/-! Rollout (`MCTSNode::rollout` in `mcts.rs`). -/

/-- The `match` used throughout the source to hand the turn to the other
color. -/
def Color.opp : Color → Color
| .WHITE => .BLACK
| .BLACK => .WHITE

lemma occupiedCount_le_64 (b : Board) : occupiedCount b ≤ 64 :=
  le_trans (List.length_filter_le _ _) (by decide)

lemma length_filter_lt {l : List PointVec} {f : PointVec → Bool} {p : PointVec}
    (hp : p ∈ l) (hfp : f p = false) : (l.filter f).length < l.length := by
  induction l with
  | nil => cases hp
  | cons a rest ih =>
    rw [List.filter_cons]
    rcases List.mem_cons.mp hp with rfl | hp2
    · rw [hfp]
      simp only [Bool.false_eq_true, if_false, List.length_cons]
      exact Nat.lt_succ_of_le (List.length_filter_le _ _)
    · by_cases hfa : f a = true
      · rw [if_pos hfa]
        simpa using Nat.succ_lt_succ (ih hp2)
      · rw [if_neg hfa]
        exact Nat.lt_succ_of_lt (ih hp2)

lemma occupiedCount_lt_of_legal {b : Board} {color : Color} {pos : PointVec}
    (h : b.is_legal_move color pos = true) : occupiedCount b < 64 := by
  obtain ⟨hg, _⟩ := is_legal_elim h
  have hinB := Board.inB_of_get_eq_some hg
  have hcell : b.cellD pos = 0 := Board.cellD_eq hg
  have hlt := @length_filter_lt boardPoints (fun p => decide (b.cellD p ≠ 0))
    pos (mem_boardPoints_iff.mpr hinB) (by simp [hcell])
  calc occupiedCount b < boardPoints.length := hlt
  _ = 64 := by decide

lemma game_over_false_elim {b : Board} (h : b.game_over = false) {c : Color}
    (hc : (b.legal_moves c).isEmpty = true) :
    (b.legal_moves c.opp).isEmpty = false := by
  unfold Board.game_over at h
  cases c
  · cases hw2 : (b.legal_moves Color.BLACK).isEmpty
    · exact hw2
    · rw [hc, hw2] at h
      cases h
  · cases hw2 : (b.legal_moves Color.WHITE).isEmpty
    · exact hw2
    · rw [hc, hw2] at h
      cases h

/-- The playout loop of `MCTSNode::rollout`: compute the side to move's
legal moves; skip the turn if there are none, otherwise play one chosen
move; stop on `game_over`. The RNG draw `moves.choose(&mut rng)` is
modelled by the oracle `pick` applied to the number of draws so far
(`step`), reduced mod the list length: every RNG behaviour is some such
oracle, and the chosen element is always a member of `moves`. `fuel`
bounds the loop; `rolloutLoop_isSome` shows it is never exhausted when
`fuel ≥ 2*(64 - occupiedCount b) + 2`, so the `none` branch is
unreachable and the source loop terminates. -/
def rolloutLoop (pick : Nat → Nat) : Nat → Nat → Board → Color → Option Board
| 0, _, _, _ => none
| fuel + 1, step, b, player =>
  if b.game_over then some b
  else
    if (b.legal_moves player).isEmpty then
      rolloutLoop pick fuel step b player.opp
    else
      rolloutLoop pick fuel (step + 1)
        (b.play player ((b.legal_moves player).getD
          (pick step % (b.legal_moves player).length) (0, 0))).2
        player.opp

/-- Final scoring of `MCTSNode::rollout` from `selfPlayer`'s perspective
(the node's own color); the f64 literals 1.0/0.5/0.0 become rationals. -/
def rolloutScore (selfPlayer : Color) (b : Board) : Rat :=
  match selfPlayer with
  | .WHITE =>
    if b.score.2 < b.score.1 then 1
    else if b.score.1 = b.score.2 then 1/2
    else 0
  | .BLACK =>
    if b.score.1 < b.score.2 then 1
    else if b.score.2 = b.score.1 then 1/2
    else 0

/-- `MCTSNode::rollout`, as a function of the choice oracle and fuel. -/
def rollout (pick : Nat → Nat) (fuel : Nat) (b : Board)
    (player selfPlayer : Color) : Option Rat :=
  (rolloutLoop pick fuel 0 b player).map (rolloutScore selfPlayer)

lemma ite_score_cases {p q : Prop} [Decidable p] [Decidable q] :
    (if p then (1 : Rat) else if q then 1/2 else 0) = 0 ∨
    (if p then (1 : Rat) else if q then 1/2 else 0) = 1/2 ∨
    (if p then (1 : Rat) else if q then 1/2 else 0) = 1 := by
  split
  · exact Or.inr (Or.inr rfl)
  · split
    · exact Or.inr (Or.inl rfl)
    · exact Or.inl rfl

lemma rolloutScore_cases (selfPlayer : Color) (b : Board) :
    rolloutScore selfPlayer b = 0 ∨ rolloutScore selfPlayer b = 1/2 ∨
      rolloutScore selfPlayer b = 1 := by
  cases selfPlayer
  · exact ite_score_cases
  · exact ite_score_cases

lemma legal_moves_getD_mem {b : Board} {color : Color}
    (h : (b.legal_moves color).isEmpty = false) (i : Nat) :
    (b.legal_moves color).getD (i % (b.legal_moves color).length) (0, 0) ∈
      b.legal_moves color := by
  have hne : b.legal_moves color ≠ [] := List.isEmpty_eq_false.mp h
  have hlen : 0 < (b.legal_moves color).length := List.length_pos.mpr hne
  have hlt : i % (b.legal_moves color).length < (b.legal_moves color).length :=
    Nat.mod_lt _ hlen
  rw [List.getD_eq_getElem _ (0, 0) hlt]
  exact List.getElem_mem hlt

lemma rolloutLoop_succ (pick : Nat → Nat) (fuel step : Nat) (b : Board)
    (player : Color) :
    rolloutLoop pick (fuel + 1) step b player =
      if b.game_over then some b
      else if (b.legal_moves player).isEmpty then
        rolloutLoop pick fuel step b player.opp
      else
        rolloutLoop pick fuel (step + 1)
          (b.play player ((b.legal_moves player).getD
            (pick step % (b.legal_moves player).length) (0, 0))).2
          player.opp := rfl

lemma rolloutLoop_isSome (pick : Nat → Nat) :
    ∀ (fuel step : Nat) (b : Board) (player : Color),
    2 * (64 - occupiedCount b) + 2 ≤ fuel →
    ∃ bf, rolloutLoop pick fuel step b player = some bf := by
  intro fuel
  induction fuel using Nat.strong_induction_on with
  | _ fuel ih =>
    intro step b player hfuel
    rcases fuel with _ | fuel1
    · omega
    rcases fuel1 with _ | fuel2
    · omega
    rw [rolloutLoop_succ]
    by_cases hgo : b.game_over = true
    · rw [if_pos hgo]
      exact ⟨b, rfl⟩
    rw [if_neg hgo]
    have hgo2 : b.game_over = false := by
      cases h2 : b.game_over
      · rfl
      · exact absurd h2 hgo
    by_cases hemp : (b.legal_moves player).isEmpty = true
    · rw [if_pos hemp, rolloutLoop_succ, if_neg hgo]
      have hemp2 : (b.legal_moves player.opp).isEmpty = false :=
        game_over_false_elim hgo2 hemp
      rw [hemp2]
      simp only [Bool.false_eq_true, if_false]
      have hmem := legal_moves_getD_mem hemp2 (pick step)
      have hlegal := mem_legal_moves_iff.mp hmem
      have hocc : occupiedCount b < 64 := occupiedCount_lt_of_legal hlegal
      obtain ⟨hmono, hexact⟩ :=
        @play_count b player.opp ((b.legal_moves player.opp).getD
          (pick step % (b.legal_moves player.opp).length) (0, 0))
      have hcnt := hexact ((play_ok_iff_legal _ _ _).mpr hlegal)
      apply ih fuel2 (by omega)
      rw [hcnt]
      omega
    · rw [if_neg hemp]
      have hemp2 : (b.legal_moves player).isEmpty = false := by
        cases he : (b.legal_moves player).isEmpty
        · rfl
        · exact absurd he hemp
      have hmem := legal_moves_getD_mem hemp2 (pick step)
      have hlegal := mem_legal_moves_iff.mp hmem
      have hocc : occupiedCount b < 64 := occupiedCount_lt_of_legal hlegal
      obtain ⟨hmono, hexact⟩ :=
        @play_count b player ((b.legal_moves player).getD
          (pick step % (b.legal_moves player).length) (0, 0))
      have hcnt := hexact ((play_ok_iff_legal _ _ _).mpr hlegal)
      apply ih (fuel2 + 1) (by omega)
      rw [hcnt]
      omega

/-! The search tree of `mcts.rs`. -/

/-- The `MCTSNode` of `mcts.rs`. The raw parent pointer of the source is
not stored: the tree is modelled functionally (children own their
subtrees) and backpropagation happens on the way out of the recursive
descent in `iterateAux`, which retraces exactly the parent chain the
source's pointer walk follows. -/
inductive MCTSNode where
| mk (state : Board) (player : Color) (children : List MCTSNode)
    (action : Option PointVec) (visits : Nat) (wins : Rat)
    (untried_actions : List PointVec)

def MCTSNode.state : MCTSNode → Board
| .mk s _ _ _ _ _ _ => s

def MCTSNode.player : MCTSNode → Color
| .mk _ p _ _ _ _ _ => p

def MCTSNode.children : MCTSNode → List MCTSNode
| .mk _ _ c _ _ _ _ => c

def MCTSNode.action : MCTSNode → Option PointVec
| .mk _ _ _ a _ _ _ => a

def MCTSNode.visits : MCTSNode → Nat
| .mk _ _ _ _ v _ _ => v

def MCTSNode.wins : MCTSNode → Rat
| .mk _ _ _ _ _ w _ => w

def MCTSNode.untried_actions : MCTSNode → List PointVec
| .mk _ _ _ _ _ _ u => u

instance : Inhabited MCTSNode := ⟨.mk Board.new .WHITE [] none 0 0 []⟩

/-- `MCTSNode::new` (the parent pointer is dropped, see `MCTSNode`). -/
def MCTSNode.new (state : Board) (player : Color)
    (action : Option PointVec) : MCTSNode :=
  .mk state player [] action 0 0 (state.legal_moves player)

/-- `MCTSNode::is_terminal`. -/
def MCTSNode.is_terminal (n : MCTSNode) : Bool := n.state.game_over

/-- `MCTSNode::is_fully_expanded`. -/
def MCTSNode.is_fully_expanded (n : MCTSNode) : Bool :=
  n.untried_actions.isEmpty

/-- The UCB1 score computed inside `MCTSNode::best_child`:
`wins/visits + c * ((parent.visits).ln() / visits).sqrt()`. The f64
arithmetic is modelled over the reals. -/
noncomputable def ucb1 (parentVisits : Nat) (wins : Rat) (visits : Nat)
    (c : Real) : Real :=
  (wins : Real) / (visits : Real) +
    c * Real.sqrt (Real.log (parentVisits : Real) / (visits : Real))

open Classical in
/-- The fold of `Iterator::max_by` over element indices: `m` is the index
of the current maximum and the iterator still yields the `k` indices
`next, next+1, …`. Rust's `max_by` keeps the accumulator only when it
compares strictly greater, so on ties the newer (later) element replaces
it and the LAST maximal element wins. Comparisons over the reals are
total, so the `partial_cmp(..).unwrap()` of the source cannot panic in
the model. -/
noncomputable def maxByFrom (score : Nat → Real) : Nat → Nat → Nat → Nat
| m, _, 0 => m
| m, next, k + 1 =>
  maxByFrom score (if score next < score m then m else next) (next + 1) k

/-- Index form of `MCTSNode::best_child`: `None` on no children, else the
index `max_by` picks over the children's UCB1 scores. -/
noncomputable def MCTSNode.best_childIdx (n : MCTSNode) (c : Real) :
    Option Nat :=
  if n.children.isEmpty then none
  else some (maxByFrom
    (fun i => ucb1 n.visits (n.children.getD i default).wins
      (n.children.getD i default).visits c)
    0 1 (n.children.length - 1))

/-- `MCTSNode::best_child`. -/
noncomputable def MCTSNode.best_child (n : MCTSNode) (c : Real) :
    Option MCTSNode :=
  (n.best_childIdx c).map fun i => n.children.getD i default

/-- `MCTSNode::rollout` with the always-sufficient fuel 130 = 2*64+2 (any
board has at most 64 empty cells left, see `rolloutLoop_isSome`); the
`getD` default is never taken. -/
def rolloutTotal (pick : Nat → Nat) (b : Board) (player : Color) : Rat :=
  (rollout pick 130 b player player).getD 0

/-- Expansion, simulation and the local part of backpropagation at the
node where the selection walk of `mcts_search` stops. If the node is
non-terminal and has untried actions, `expand` pops the LAST untried
action (`Vec::pop`), clones the board, plays the action (ignoring the
`Result`, as the source does) and the rollout runs from the new child;
otherwise (terminal node, or fully expanded node with no children where
the defensive `break` fired) the rollout runs from the node itself.
Returns the updated subtree and the increment `backpropagate` hands to
the parent. -/
def stopHere (pick : Nat → Nat) (node : MCTSNode) : MCTSNode × Rat :=
  if node.is_terminal = false then
    match node.untried_actions.getLast? with
    | some a =>
      (.mk node.state node.player
        (node.children ++
          [.mk (node.state.play node.player a).2 node.player.opp []
            (some a) 1
            (0 + rolloutTotal pick (node.state.play node.player a).2
              node.player.opp)
            ((node.state.play node.player a).2.legal_moves node.player.opp)])
        node.action (node.visits + 1)
        (node.wins +
          (1 - rolloutTotal pick (node.state.play node.player a).2
            node.player.opp))
        node.untried_actions.dropLast,
        1 - rolloutTotal pick (node.state.play node.player a).2 node.player.opp)
    | none =>
      (.mk node.state node.player node.children node.action (node.visits + 1)
        (node.wins + rolloutTotal pick node.state node.player)
        node.untried_actions,
        rolloutTotal pick node.state node.player)
  else
    (.mk node.state node.player node.children node.action (node.visits + 1)
      (node.wins + rolloutTotal pick node.state node.player)
      node.untried_actions,
      rolloutTotal pick node.state node.player)

/-- One iteration of the search loop in `mcts_search`: the selection walk
(descend to `best_child(SQRT_2)` while non-terminal and fully expanded),
then expansion/rollout at the stop node (`stopHere`), then
backpropagation along the walked path on the way back up, inverting the
result at each parent step. `fuel` bounds the descent depth; each
iteration grows the tree by at most one node, so the fuel chosen in
`mcts_search` is never exhausted (and the fuel-0 branch merely stops
descending early, like the defensive `break` of the source). -/
noncomputable def iterateAux (pick : Nat → Nat) :
    Nat → MCTSNode → MCTSNode × Rat
| 0, node => stopHere pick node
| fuel + 1, node =>
  if node.is_terminal = false ∧ node.is_fully_expanded = true then
    match node.best_childIdx (Real.sqrt 2) with
    | none => stopHere pick node
    | some i =>
      ((.mk node.state node.player
        (node.children.set i
          (iterateAux pick fuel (node.children.getD i default)).1)
        node.action (node.visits + 1)
        (node.wins +
          (1 - (iterateAux pick fuel (node.children.getD i default)).2))
        node.untried_actions),
        1 - (iterateAux pick fuel (node.children.getD i default)).2)
  else stopHere pick node

/-- `mcts_search` of `mcts.rs`: build the root, return `None` when it has
no untried action, run the iteration loop, then return
`best_child(0.0).and_then(|n| n.action)`. `picks i` is the rollout choice
oracle for iteration `i`. -/
noncomputable def mcts_search (root_state : Board) (player : Color)
    (iterations : Nat) (picks : Nat → Nat → Nat) : Option PointVec :=
  if (MCTSNode.new root_state player none).untried_actions.isEmpty then
    none
  else
    (((List.range iterations).foldl
        (fun r i => (iterateAux (picks i) (iterations + 1) r).1)
        (MCTSNode.new root_state player none)).best_child 0).bind
      fun n => n.action

/-- Visit/win statistics of one node, for the backpropagation model. -/
structure NodeStats where
  visits : Nat
  wins : Rat

/-- `MCTSNode::backpropagate`, modelled on the chain of statistics from
the node it is called on (head of the list) along its parent chain to the
root (last element): the source does `self.visits += 1; self.wins +=
result;` and recurses into the parent with `1.0 - result`. -/
def backpropagate (result : Rat) : List NodeStats → List NodeStats
| [] => []
| s :: rest =>
  ⟨s.visits + 1, s.wins + result⟩ :: backpropagate (1 - result) rest

/-! Characterisation of the max_by fold: last maximal element wins. -/

lemma maxByFrom_spec (score : Nat → Real) :
    ∀ (k next m : Nat), m < next →
    (maxByFrom score m next k = m ∨
      (next ≤ maxByFrom score m next k ∧
        maxByFrom score m next k < next + k)) ∧
    score m ≤ score (maxByFrom score m next k) ∧
    (∀ j, next ≤ j → j < next + k →
      score j ≤ score (maxByFrom score m next k)) ∧
    (∀ j, next ≤ j → j < next + k → maxByFrom score m next k < j →
      score j < score (maxByFrom score m next k)) := by
  intro k
  induction k with
  | zero =>
    intro next m _
    refine ⟨Or.inl rfl, le_refl _, ?_, ?_⟩ <;> intro j h1 h2 <;> omega
  | succ k ih =>
    intro next m hm
    by_cases hcmp : score next < score m
    · have hstep : maxByFrom score m next (k + 1) =
          maxByFrom score m (next + 1) k := by
        show maxByFrom score (if score next < score m then m else next)
          (next + 1) k = _
        rw [if_pos hcmp]
      obtain ⟨hpos, hbase, hall, hlast⟩ := ih (next + 1) m (by omega)
      rw [hstep]
      refine ⟨?_, hbase, ?_, ?_⟩
      · rcases hpos with h | ⟨h1, h2⟩
        · exact Or.inl h
        · exact Or.inr ⟨by omega, by omega⟩
      · intro j h1 h2
        rcases Nat.eq_or_lt_of_le h1 with rfl | hj
        · exact le_trans (le_of_lt hcmp) hbase
        · exact hall j hj (by omega)
      · intro j h1 h2 h3
        rcases Nat.eq_or_lt_of_le h1 with rfl | hj
        · have hr : maxByFrom score m (next + 1) k = m := by
            rcases hpos with h | ⟨h1', _⟩
            · exact h
            · omega
          rw [hr]
          exact hcmp
        · exact hlast j hj (by omega) h3
    · have hstep : maxByFrom score m next (k + 1) =
          maxByFrom score next (next + 1) k := by
        show maxByFrom score (if score next < score m then m else next)
          (next + 1) k = _
        rw [if_neg hcmp]
      obtain ⟨hpos, hbase, hall, hlast⟩ := ih (next + 1) next (by omega)
      rw [hstep]
      have hmn : score m ≤ score next := le_of_not_lt hcmp
      refine ⟨?_, le_trans hmn hbase, ?_, ?_⟩
      · rcases hpos with h | ⟨h1, h2⟩
        · exact Or.inr ⟨by omega, by omega⟩
        · exact Or.inr ⟨by omega, by omega⟩
      · intro j h1 h2
        rcases Nat.eq_or_lt_of_le h1 with rfl | hj
        · exact hbase
        · exact hall j hj (by omega)
      · intro j h1 h2 h3
        rcases Nat.eq_or_lt_of_le h1 with rfl | hj
        · rcases hpos with h | ⟨h1', _⟩
          · omega
          · omega
        · exact hlast j hj (by omega) h3

/-- UCB1 score of child `i` of `n` (with exploration constant `c`). -/
noncomputable def chScore (n : MCTSNode) (c : Real) (i : Nat) : Real :=
  ucb1 n.visits (n.children.getD i default).wins
    (n.children.getD i default).visits c

lemma best_childIdx_spec (n : MCTSNode) (c : Real)
    (hne : n.children.isEmpty = false) :
    ∃ i, n.best_childIdx c = some i ∧ i < n.children.length ∧
      (∀ j, j < n.children.length → chScore n c j ≤ chScore n c i) ∧
      (∀ j, i < j → j < n.children.length →
        chScore n c j < chScore n c i) := by
  have hlen : 0 < n.children.length :=
    List.length_pos.mpr (List.isEmpty_eq_false.mp hne)
  unfold MCTSNode.best_childIdx
  rw [hne]
  simp only [Bool.false_eq_true, if_false]
  have hfun : (fun i => ucb1 n.visits (n.children.getD i default).wins
      (n.children.getD i default).visits c) = chScore n c := rfl
  rw [hfun]
  obtain ⟨hpos, hbase, hall, hlast⟩ :=
    maxByFrom_spec (chScore n c) (n.children.length - 1) 1 0 Nat.one_pos
  refine ⟨_, rfl, ?_, ?_, ?_⟩
  · rcases hpos with h | ⟨h1, h2⟩
    · omega
    · omega
  · intro j hj
    rcases Nat.eq_zero_or_pos j with rfl | hj1
    · exact hbase
    · exact hall j hj1 (by omega)
  · intro j h1 h2
    have hj1 : 1 ≤ j := by omega
    exact hlast j hj1 (by omega) h1

lemma best_childIdx_some_lt {n : MCTSNode} {c : Real} {i : Nat}
    (h : n.best_childIdx c = some i) : i < n.children.length := by
  cases he : n.children.isEmpty
  · obtain ⟨i2, hi2, hlt, _, _⟩ := best_childIdx_spec n c he
    rw [h] at hi2
    cases hi2
    exact hlt
  · unfold MCTSNode.best_childIdx at h
    rw [he] at h
    cases h

/-! Root invariant of the search loop: every child of a node carries an
action drawn from that node's original legal-move list. -/

/-- Invariant tying a node's untried actions and children's actions to
the legal moves `L` of the node's own state. -/
def rootInv (L : List PointVec) (n : MCTSNode) : Prop :=
  (∀ a ∈ n.untried_actions, a ∈ L) ∧
  (∀ ch ∈ n.children, ∃ a, ch.action = some a ∧ a ∈ L)

lemma stopHere_action (pick : Nat → Nat) (node : MCTSNode) :
    (stopHere pick node).1.action = node.action := by
  unfold stopHere
  split
  · split <;> rfl
  · rfl

lemma iterateAux_action (pick : Nat → Nat) :
    ∀ (fuel : Nat) (node : MCTSNode),
    (iterateAux pick fuel node).1.action = node.action := by
  intro fuel
  induction fuel with
  | zero => exact fun node => stopHere_action pick node
  | succ fuel ih =>
    intro node
    simp only [iterateAux]
    split
    · split
      · exact stopHere_action pick node
      · rfl
    · exact stopHere_action pick node

lemma stopHere_inv {L : List PointVec} {node : MCTSNode}
    (h : rootInv L node) (pick : Nat → Nat) :
    rootInv L (stopHere pick node).1 := by
  obtain ⟨hu, hc⟩ := h
  unfold stopHere
  split
  · split
    · next a hlast =>
        constructor
        · intro a2 ha2
          exact hu a2 ((List.dropLast_sublist _).subset ha2)
        · intro ch hch
          rcases List.mem_append.mp hch with hmem | hmem
          · exact hc ch hmem
          · rw [List.mem_singleton.mp hmem]
            refine ⟨a, rfl, hu a ?_⟩
            exact List.mem_of_mem_getLast? hlast
    · exact ⟨hu, hc⟩
  · exact ⟨hu, hc⟩

lemma iterateAux_inv {L : List PointVec} (pick : Nat → Nat) :
    ∀ (fuel : Nat) (node : MCTSNode), rootInv L node →
    rootInv L (iterateAux pick fuel node).1 := by
  intro fuel
  induction fuel with
  | zero => exact fun node h => stopHere_inv h pick
  | succ fuel ih =>
    intro node h
    simp only [iterateAux]
    split
    · split
      · exact stopHere_inv h pick
      · next i hbi =>
          obtain ⟨hu, hc⟩ := h
          have hilt : i < node.children.length := best_childIdx_some_lt hbi
          constructor
          · exact hu
          · intro ch hch
            rcases List.mem_or_eq_of_mem_set hch with hmem | rfl
            · exact hc ch hmem
            · rw [iterateAux_action]
              apply hc
              rw [List.getD_eq_getElem _ default hilt]
              exact List.getElem_mem hilt
    · exact stopHere_inv h pick

lemma best_child_mem {n : MCTSNode} {c : Real} {ch : MCTSNode}
    (h : n.best_child c = some ch) : ch ∈ n.children := by
  unfold MCTSNode.best_child at h
  rcases hbi : n.best_childIdx c with _ | i
  · rw [hbi] at h
    cases h
  · rw [hbi] at h
    have hilt := best_childIdx_some_lt hbi
    simp only [Option.map_some'] at h
    cases h
    rw [List.getD_eq_getElem _ default hilt]
    exact List.getElem_mem hilt

/-! Backpropagation statistics (C6). -/

lemma backpropagate_spec :
    ∀ (chain : List NodeStats) (result : Rat) (i : Nat), i < chain.length →
    ((backpropagate result chain).getD i ⟨0, 0⟩).visits =
      (chain.getD i ⟨0, 0⟩).visits + 1 ∧
    ((backpropagate result chain).getD i ⟨0, 0⟩).wins =
      (chain.getD i ⟨0, 0⟩).wins +
        (if i % 2 = 0 then result else 1 - result) := by
  intro chain
  induction chain with
  | nil => intro result i hi; cases hi
  | cons s rest ih =>
    intro result i hi
    rcases i with _ | i2
    · exact ⟨rfl, rfl⟩
    · have hrec := ih (1 - result) i2 (by simpa using hi)
      simp only [backpropagate, List.getD_cons_succ]
      refine ⟨hrec.1, ?_⟩
      rw [hrec.2]
      by_cases hpar : i2 % 2 = 0
      · rw [if_pos hpar, if_neg (by omega : ¬ (i2 + 1) % 2 = 0)]
      · rw [if_neg hpar, if_pos (by omega : (i2 + 1) % 2 = 0)]
        ring_nf

lemma foldl_iterate_inv {L : List PointVec} (picks : Nat → Nat → Nat)
    (fuel : Nat) :
    ∀ (l : List Nat) (acc : MCTSNode), rootInv L acc →
    rootInv L (l.foldl (fun r i => (iterateAux (picks i) fuel r).1) acc) := by
  intro l
  induction l with
  | nil => exact fun acc h => h
  | cons i rest ih =>
    intro acc h
    exact ih _ (iterateAux_inv (picks i) fuel acc h)

/-! Symmetry transformations of the board (for C8). -/

/-- Quarter-turn of a board point: (x, y) goes to (y, 7 - x). -/
def rotPoint (p : PointVec) : PointVec := (p.2, 7 - p.1)

/-- Point reflection of a board point through the centre of the grid. -/
def symPoint (p : PointVec) : PointVec := (7 - p.1, 7 - p.2)

/-- Quarter-turn of the board: the cell at point p of the rotated board
is the original cell at rotPoint p. -/
def rotBoard (b : Board) : Board :=
  ⟨fun y x => b.cellD (rotPoint (((x : Nat) : Int), ((y : Nat) : Int)))⟩

/-- Half-turn (180 degrees) of the board. -/
def rot2Board (b : Board) : Board :=
  ⟨fun y x => b.cellD (symPoint (((x : Nat) : Int), ((y : Nat) : Int)))⟩

/-- The board with White and Black exchanged. -/
def swapBoard (b : Board) : Board := ⟨fun y x => - b.cells y x⟩

/-! The ten claims. -/

/-- C1: for every Board state and every color, play(color, coord) returns
Ok exactly when coord is an element of legal_moves(color); every
coordinate outside that set gets an error. (Proved for all boards, hence
in particular for the reachable ones.) -/
theorem claim1_play_ok_iff_legal (b : Board) (color : Color)
    (pos : PointVec) :
    (b.play color pos).1 = .ok () ↔ pos ∈ b.legal_moves color := by
  rw [play_ok_iff_legal, mem_legal_moves_iff]

theorem claim1_witness :
    (Board.new.play .WHITE (4, 2)).1 = .ok () ∧
    ((4, 2) : PointVec) ∈ Board.new.legal_moves .WHITE :=
  ⟨(claim1_play_ok_iff_legal Board.new .WHITE (4, 2)).mpr (by decide),
    by decide⟩

/-- C2 counterexample: on the initial board, playing White onto the
occupied cell (3,3) fails with DoesntTurnOver, not CellOccupied, and
playing onto the off-board coordinate (9,9) fails with DoesntTurnOver,
not CantMoveOffBoard: play checks is_legal_move first and its failure
branch always returns DoesntTurnOver. -/
theorem claim2_counterexample :
    Board.new.cellD (3, 3) ≠ 0 ∧
    (Board.new.play .WHITE (3, 3)).1 = .error .DoesntTurnOver ∧
    ¬ inB ((9, 9) : PointVec) ∧
    (Board.new.play .WHITE (9, 9)).1 = .error .DoesntTurnOver := by
  decide

/-- C2 (amended): every failing play(color, pos) fails with
DoesntTurnOver — for occupied target cells and off-board coordinates as
well as for empty on-board cells that flip nothing; the CellOccupied and
CantMoveOffBoard variants are never returned by play. -/
theorem claim2_errors_doesnt_turn_over (b : Board) (color : Color)
    (pos : PointVec) (e : IllegalMoveError)
    (h : (b.play color pos).1 = .error e) : e = .DoesntTurnOver :=
  (play_error_elim h).1

theorem claim2_witness :
    ∃ e, (Board.new.play .WHITE (0, 0)).1 = .error e ∧
      e = .DoesntTurnOver :=
  ⟨.DoesntTurnOver, by decide,
    claim2_errors_doesnt_turn_over Board.new .WHITE (0, 0) .DoesntTurnOver
      (by decide)⟩

/-- C3 counterexample: (2,3) is NOT one of White's legal moves on the
initial board (the claimed golden set is Black's legal-move set in this
board orientation), and play(WHITE, (2,3)) fails. -/
theorem claim3_counterexample :
    ((2, 3) : PointVec) ∉ Board.new.legal_moves .WHITE ∧
    (Board.new.play .WHITE (2, 3)).1 = .error .DoesntTurnOver := by
  decide

/-- C3 (amended): on the initial board legal_moves(WHITE) is exactly
{(4,2),(5,3),(2,4),(3,5)} (in row-major order) — the claimed set
{(2,3),(3,2),(4,5),(5,4)} is legal_moves(BLACK) — and after a successful
play(WHITE, (4,2)) exactly one Black piece flips and score() returns
White=4, Black=1. -/
theorem claim3_opening :
    Board.new.legal_moves .WHITE = [(4, 2), (5, 3), (2, 4), (3, 5)] ∧
    Board.new.legal_moves .BLACK = [(3, 2), (2, 3), (5, 4), (4, 5)] ∧
    (Board.new.play .WHITE (4, 2)).1 = .ok () ∧
    flipCount Board.new (Board.new.play .WHITE (4, 2)).2 = 1 ∧
    (Board.new.play .WHITE (4, 2)).2.score = (4, 1) := by
  decide

/-- C4 (amended): for every node with children (each visited at least
once), best_child(c) returns a child maximizing the UCB1 score
chScore = wins/visits + c*sqrt(ln(parent visits)/visits), and when
several children attain the maximum it returns the LAST such child in
insertion order (Rust's max_by keeps the later element on ties), not the
first. -/
theorem claim4_best_child_last_argmax (n : MCTSNode) (c : Real)
    (hne : n.children ≠ []) (hv : ∀ ch ∈ n.children, 1 ≤ ch.visits) :
    ∃ i, i < n.children.length ∧
      n.best_child c = some (n.children.getD i default) ∧
      (∀ j, j < n.children.length → chScore n c j ≤ chScore n c i) ∧
      (∀ j, i < j → j < n.children.length →
        chScore n c j < chScore n c i) := by
  have hne2 : n.children.isEmpty = false := by
    cases he : n.children.isEmpty
    · rfl
    · exact absurd (List.isEmpty_iff.mp he) hne
  obtain ⟨i, hbi, hlt, hall, hlast⟩ := best_childIdx_spec n c hne2
  refine ⟨i, hlt, ?_, hall, hlast⟩
  unfold MCTSNode.best_child
  rw [hbi]
  rfl

/-- A node whose two children carry identical statistics but different
actions (so identical UCB1 scores), for the C4 counterexample. -/
def exChildA : MCTSNode := .mk Board.new .BLACK [] (some (0, 0)) 1 0 []

def exChildB : MCTSNode := .mk Board.new .BLACK [] (some (1, 1)) 1 0 []

def exNode : MCTSNode := .mk Board.new .WHITE [exChildA, exChildB] none 2 0 []

def exNodeW : MCTSNode := .mk Board.new .WHITE [exChildA] none 1 0 []

/-- C4 counterexample: with two children of equal UCB1 score, best_child
returns the SECOND child, not the first — Rust's max_by resolves ties
towards the last element. -/
theorem claim4_counterexample :
    exNode.best_child 1 = some exChildB ∧
    exChildB.action ≠ exChildA.action ∧
    ucb1 exNode.visits exChildA.wins exChildA.visits 1 =
      ucb1 exNode.visits exChildB.wins exChildB.visits 1 ∧
    exNode.children = [exChildA, exChildB] := by
  refine ⟨?_, by decide, rfl, rfl⟩
  unfold MCTSNode.best_child MCTSNode.best_childIdx
  have hne : exNode.children.isEmpty = false := rfl
  rw [hne]
  simp only [Bool.false_eq_true, if_false]
  have hlen : exNode.children.length - 1 = 1 := rfl
  rw [hlen]
  have hstep : ∀ score : Nat → Real, maxByFrom score 0 1 1 =
      if score 1 < score 0 then 0 else 1 := fun _ => rfl
  rw [hstep]
  have hirr : ¬ (ucb1 exNode.visits (exNode.children.getD 1 default).wins
      (exNode.children.getD 1 default).visits 1 <
    ucb1 exNode.visits (exNode.children.getD 0 default).wins
      (exNode.children.getD 0 default).visits 1) := lt_irrefl _
  rw [if_neg hirr]
  rfl

theorem claim4_witness :
    ∃ i, i < exNodeW.children.length ∧
      exNodeW.best_child 1 = some (exNodeW.children.getD i default) ∧
      (∀ j, j < exNodeW.children.length →
        chScore exNodeW 1 j ≤ chScore exNodeW 1 i) ∧
      (∀ j, i < j → j < exNodeW.children.length →
        chScore exNodeW 1 j < chScore exNodeW 1 i) :=
  claim4_best_child_last_argmax exNodeW 1 (List.cons_ne_nil _ _)
    (fun ch hch => by
      rw [List.mem_singleton.mp hch]
      exact le_refl _)

/-- C5: from any board with at least the 4 initial pieces, rollout()
terminates — fuel 122 = 2*60+2 covers the at most 60 remaining
placements with a skip-turn interleaved before each (two consecutive
skips would mean game_over) — and the value, scored from the node's own
color's perspective by rolloutScore, is always 0, 1/2 or 1. -/
theorem claim5_rollout_terminates (pick : Nat → Nat) (b : Board)
    (player selfPlayer : Color) (h4 : 4 ≤ occupiedCount b) :
    ∃ v, rollout pick 122 b player selfPlayer = some v ∧
      (v = 0 ∨ v = 1/2 ∨ v = 1) := by
  obtain ⟨bf, hbf⟩ := rolloutLoop_isSome pick 122 0 b player (by omega)
  refine ⟨rolloutScore selfPlayer bf, ?_, rolloutScore_cases selfPlayer bf⟩
  unfold rollout
  rw [hbf]
  rfl

/-- The all-White board, a game-over position used as a witness input. -/
def allOnes : Board := ⟨fun _ _ => 1⟩

theorem claim5_witness :
    ∃ v, rollout (fun _ => 0) 122 allOnes .WHITE .WHITE = some v ∧
      (v = 0 ∨ v = 1/2 ∨ v = 1) :=
  claim5_rollout_terminates (fun _ => 0) allOnes .WHITE .WHITE (by decide)

/-- C6: backpropagate(r), modelled on the chain of statistics from the
called node up its parent chain, adds exactly 1 visit at every node on
the chain, adds r to the called node's win accumulator, 1-r to its
parent's, and alternates (r at even depth, 1-r at odd depth) up to the
root. -/
theorem claim6_backpropagate (chain : List NodeStats) (result : Rat)
    (i : Nat) (hi : i < chain.length) :
    ((backpropagate result chain).getD i ⟨0, 0⟩).visits =
      (chain.getD i ⟨0, 0⟩).visits + 1 ∧
    ((backpropagate result chain).getD i ⟨0, 0⟩).wins =
      (chain.getD i ⟨0, 0⟩).wins +
        (if i % 2 = 0 then result else 1 - result) :=
  backpropagate_spec chain result i hi

theorem claim6_witness :
    ((backpropagate (1/2) [⟨0, 0⟩, ⟨3, 1⟩]).getD 1 ⟨0, 0⟩).visits =
      (([⟨0, 0⟩, ⟨3, 1⟩] : List NodeStats).getD 1 ⟨0, 0⟩).visits + 1 ∧
    ((backpropagate (1/2) [⟨0, 0⟩, ⟨3, 1⟩]).getD 1 ⟨0, 0⟩).wins =
      (([⟨0, 0⟩, ⟨3, 1⟩] : List NodeStats).getD 1 ⟨0, 0⟩).wins +
        (if 1 % 2 = 0 then 1/2 else 1 - 1/2) :=
  claim6_backpropagate [⟨0, 0⟩, ⟨3, 1⟩] (1/2) 1 (by decide)

/-- C7: across any play() call the number of occupied cells never
decreases, and every successful play increases it by exactly 1 (the
placed piece; flips only overwrite already-occupied cells). -/
theorem claim7_occupied_count (b : Board) (color : Color)
    (pos : PointVec) :
    occupiedCount b ≤ occupiedCount (b.play color pos).2 ∧
    ((b.play color pos).1 = .ok () →
      occupiedCount (b.play color pos).2 = occupiedCount b + 1) :=
  play_count

theorem claim7_witness :
    occupiedCount Board.new ≤
      occupiedCount (Board.new.play .WHITE (4, 2)).2 ∧
    occupiedCount (Board.new.play .WHITE (4, 2)).2 =
      occupiedCount Board.new + 1 :=
  ⟨(claim7_occupied_count Board.new .WHITE (4, 2)).1,
    (claim7_occupied_count Board.new .WHITE (4, 2)).2 (by decide)⟩

/-- C8 counterexample: the initial board is NOT invariant under a
quarter turn (so not 4-fold rotationally symmetric), and the point
reflection of legal_moves(BLACK) is not legal_moves(WHITE): it contains
(5,4), which is not a White legal move (each color's legal-move set is
its own point-symmetric image). -/
theorem claim8_counterexample :
    rotBoard Board.new ≠ Board.new ∧
    ((5, 4) : PointVec) ∈ (Board.new.legal_moves .BLACK).map symPoint ∧
    ((5, 4) : PointVec) ∉ Board.new.legal_moves .WHITE := by
  decide

/-- C8 (amended): the initial board is 2-fold (180-degree) rotationally
symmetric and its quarter turn equals its color swap; on it
legal_moves(WHITE) and legal_moves(BLACK) have equal cardinality and are
quarter-turn images of each other (each set being its own
point-symmetric image). -/
theorem claim8_symmetry :
    rot2Board Board.new = Board.new ∧
    rotBoard Board.new = swapBoard Board.new ∧
    (Board.new.legal_moves .WHITE).length =
      (Board.new.legal_moves .BLACK).length ∧
    (∀ p ∈ (Board.new.legal_moves .BLACK).map rotPoint,
      p ∈ Board.new.legal_moves .WHITE) ∧
    (∀ p ∈ (Board.new.legal_moves .WHITE).map rotPoint,
      p ∈ Board.new.legal_moves .BLACK) ∧
    (∀ p ∈ (Board.new.legal_moves .WHITE).map symPoint,
      p ∈ Board.new.legal_moves .WHITE) ∧
    (∀ p ∈ (Board.new.legal_moves .BLACK).map symPoint,
      p ∈ Board.new.legal_moves .BLACK) := by
  decide

/-- C9: whenever mcts_search returns Some c, the move c is one of the
root board's legal moves for the searched color — root children are only
ever created by expansion, which draws from the root's untried-action
list, initialised to exactly legal_moves. -/
theorem claim9_search_returns_legal (root_state : Board) (player : Color)
    (iterations : Nat) (picks : Nat → Nat → Nat) (a : PointVec)
    (h : mcts_search root_state player iterations picks = some a) :
    a ∈ root_state.legal_moves player := by
  unfold mcts_search at h
  by_cases hemp :
    (MCTSNode.new root_state player none).untried_actions.isEmpty = true
  · rw [if_pos hemp] at h
    cases h
  · rw [if_neg hemp] at h
    have hroot : rootInv (root_state.legal_moves player)
        (MCTSNode.new root_state player none) :=
      ⟨fun a2 ha2 => ha2, fun ch hch => absurd hch (List.not_mem_nil _)⟩
    have hinv := foldl_iterate_inv picks (iterations + 1)
      (List.range iterations) _ hroot
    rcases hbc : ((List.range iterations).foldl
        (fun r i => (iterateAux (picks i) (iterations + 1) r).1)
        (MCTSNode.new root_state player none)).best_child 0 with _ | nd
    · rw [hbc] at h
      cases h
    · rw [hbc] at h
      have hmem := best_child_mem hbc
      obtain ⟨a2, ha2, ha2L⟩ := hinv.2 nd hmem
      have hact : nd.action = some a := h
      rw [ha2] at hact
      cases hact
      exact ha2L

/-- An almost-finished position: (0,0) empty, (1,0) Black, the rest
White; White's only legal move is (0,0) and playing it ends the game.
Keeps the C9 witness search cheap to evaluate. -/
def cornerBoard : Board :=
  ⟨fun y x => if y = 0 ∧ x = 0 then 0 else if y = 0 ∧ x = 1 then -1 else 1⟩

theorem claim9_witness :
    ((0, 0) : PointVec) ∈ cornerBoard.legal_moves .WHITE :=
  claim9_search_returns_legal cornerBoard .WHITE 1 (fun _ _ => 0) (0, 0)
    (by rfl)

/-- C10: whenever play returns an error the board is left exactly
unchanged — the only reachable error path is the is_legal_move=false
branch, which errors before any mutation. -/
theorem claim10_error_leaves_board (b : Board) (color : Color)
    (pos : PointVec) (e : IllegalMoveError)
    (h : (b.play color pos).1 = .error e) : (b.play color pos).2 = b :=
  (play_error_elim h).2

theorem claim10_witness :
    (Board.new.play .WHITE (0, 1)).2 = Board.new :=
  claim10_error_leaves_board Board.new .WHITE (0, 1) .DoesntTurnOver
    (by decide)

end Othello
